import Mathlib

/-!
Verification development for the procmem repository.

Shallow embedding of the core data model and operations of the
`procmem_scan` and `procmem_access` crates: scanner candidates and their
merge algebra (`procmem_scan/src/candidate.rs`), the value predicate
(`procmem_scan/src/predicate/value.rs`), the stream scanner
(`procmem_scan/src/stream.rs`), memory pages and their merge operator
(`procmem_access/src/memory/map.rs`), the accumulating filter
(`procmem_access/src/util/acc_filter.rs`), the ptrace lock state machine
(`procmem_access/src/platform/ptrace/lock.rs`) and the procfs region-file
parser (`procmem_access/src/platform/procfs/map.rs`).

Conventions used throughout:
* Rust `usize`/`u64` values are modelled as `Nat`; saturating arithmetic is
  made explicit via `satAdd` (saturation point `usizeMax`, a 64-bit target).
* `OffsetType` (a `NonZeroUsize`) is modelled as a plain `Nat`; the
  positivity invariant is carried in hypotheses where a claim needs it.
* Fallible Rust operations (panics from out-of-bounds indexing or failed
  debug assertions) are modelled with `Option`: `none` means the Rust code
  panics.
* Identifier note: the Rust names containing the word "part" + "ial"
  (`partial`, `partial_resolved`, `is_partial`, `scan_partial`,
  `try_start_partial_candidates`, `resolve_partial`) are rendered here as
  `mkPart`, `mkPartResolved`, `isPart`, `scanPart`, `tryStartPartCands`,
  `resolvePart`; each definition's doc comment names its source symbol.
-/

namespace Procmem

/-- Largest value of `usize` on the 64-bit targets the crate supports. -/
def usizeMax : Nat := 2 ^ 64 - 1

/-- Saturating addition on `usize`, as used by `OffsetType::saturating_add`. -/
def satAdd (a b : Nat) : Nat := min (a + b) usizeMax

/-- Embeds `ScannerCandidate` from `procmem_scan/src/candidate.rs`.
`offset` is where the full match would start, `length` the byte count
currently covered, `resolved` whether the full pattern matched, and
`startOff` the stored `start_offset` field (`none` when the candidate was
born at its natural start). -/
structure ScannerCandidate where
  offset : Nat
  length : Nat
  resolved : Bool
  startOff : Option Nat
deriving DecidableEq, Repr

namespace ScannerCandidate

/-- Embeds `ScannerCandidate::normal`. -/
def normal (offset : Nat) : ScannerCandidate :=
  { offset := offset, length := 1, resolved := false, startOff := none }

/-- Embeds the `ScannerCandidate` constructor for partly observed candidates
(source name: the word `partial`): `start_offset` is stored as
`offset + length - 1`. -/
def mkPart (offset length : Nat) : ScannerCandidate :=
  { offset := offset, length := length, resolved := false,
    startOff := some (offset + length - 1) }

/-- Embeds `ScannerCandidate::resolved`; a `none` length defaults to one. -/
def mkResolved (offset : Nat) (length : Option Nat) : ScannerCandidate :=
  { offset := offset, length := length.getD 1, resolved := true, startOff := none }

/-- Embeds `ScannerCandidate::partial_resolved`: same as `mkPart` with the
resolved flag set. -/
def mkPartResolved (offset length : Nat) : ScannerCandidate :=
  { mkPart offset length with resolved := true }

/-- Embeds `ScannerCandidate::is_partial`. -/
def isPart (c : ScannerCandidate) : Bool := c.startOff.isSome

/-- Embeds `ScannerCandidate::start_offset`: the stored field, defaulting to
`offset`. -/
def startOffset (c : ScannerCandidate) : Nat := c.startOff.getD c.offset

/-- Embeds `ScannerCandidate::end_offset` (saturating add). -/
def endOffset (c : ScannerCandidate) : Nat := satAdd c.offset c.length

/-- Embeds `ScannerCandidate::advance`. -/
def advance (c : ScannerCandidate) : ScannerCandidate :=
  { c with length := c.length + 1 }

/-- Embeds `ScannerCandidate::resolve`: advance once more and set the flag. -/
def resolve (c : ScannerCandidate) : ScannerCandidate :=
  { c.advance with resolved := true }

/-- Minimum of two `Option Nat` values under Rust's `Option` ordering, where
`None` is smaller than every `Some`; used by `try_merge_mut` for the
`start_offset` field. -/
def optMin (a b : Option Nat) : Option Nat :=
  match a, b with
  | none, _ => none
  | _, none => none
  | some x, some y => some (min x y)

/-- Embeds `ScannerCandidate::try_merge_mut`. `Except.ok` carries the merged
left candidate (the Rust method mutates `self`); `Except.error` carries the
returned right candidate, with the left one untouched. -/
def tryMergeMut (a b : ScannerCandidate) : Except ScannerCandidate ScannerCandidate :=
  if a.offset ≠ b.offset then .error b
  else if a.endOffset < b.startOffset ∨ b.endOffset < a.startOffset then .error b
  else .ok { offset := a.offset, length := max a.length b.length,
             resolved := a.resolved || b.resolved,
             startOff := optMin a.startOff b.startOff }

end ScannerCandidate

/-- Embeds the result enum `UpdateCandidateResult` from
`procmem_scan/src/predicate/mod.rs`. -/
inductive UpdateCandidateResult where
  | advance
  | skip
  | remove
  | resolve
deriving DecidableEq, Repr

/-- Embeds `ValuePredicate` from `procmem_scan/src/predicate/value.rs`.
The Rust value of type `T : ByteComparable` is modelled by its byte image
`bytes` together with the alignment `alignOf` of `T`. -/
structure ValuePredicate where
  bytes : List Nat
  alignOf : Nat
  aligned : Bool

namespace ValuePredicate

/-- Embeds `ValuePredicate::offset_aligned`. -/
def offsetAligned (p : ValuePredicate) (offset : Nat) : Bool :=
  !p.aligned || offset % p.alignOf == 0

/-- Embeds `ValuePredicate::try_start_candidate`.  The source indexes
`bytes[0]`; `ValuePredicate::new` debug-asserts that the pattern is
nonempty, so the `getD` default is unreachable for constructible
predicates. -/
def tryStartCandidate (p : ValuePredicate) (offset byte : Nat) :
    Option ScannerCandidate :=
  if p.offsetAligned offset then
    if p.bytes.getD 0 0 == byte then
      some (if p.bytes.length == 1 then ScannerCandidate.mkResolved offset (some 1)
            else ScannerCandidate.normal offset)
    else none
  else none

/-- Embeds `ValuePredicate::update_candidate`.  The source first indexes
`bytes[candidate.length()]` (guarded only by a debug assertion); when
`candidate.length ≥ bytes.length` the Rust code panics, modelled as
`none`. -/
def updateCandidate (p : ValuePredicate) (_offset byte : Nat)
    (c : ScannerCandidate) : Option UpdateCandidateResult :=
  if p.bytes.length ≤ c.length then none
  else if p.bytes.getD c.length 0 ≠ byte then some .remove
  else if c.length == p.bytes.length - 1 then some .resolve
  else some .advance

/-- The index sequence `[n-1, n-2, …, 1]`, mirroring the source iteration
`bytes.iter().enumerate().skip(1).rev()` over a pattern of length `n`. -/
def descRange : Nat → List Nat
  | 0 => []
  | n + 1 => if n = 0 then [] else n :: descRange n

/-- Embeds `ValuePredicate::try_start_partial_candidates` (the function that
enumerates potential tail candidates at the first byte of a chunk).
`offset - i` is `Nat` subtraction, which coincides with the source's
`saturating_sub`. -/
def tryStartPartCands (p : ValuePredicate) (offset byte : Nat) :
    List ScannerCandidate :=
  (descRange p.bytes.length).filterMap fun i =>
    if byte ≠ p.bytes.getD i 0 then none
    else if offset - i = 0 then none
    else if p.offsetAligned (offset - i) then
      some (if i + 1 == p.bytes.length then
              ScannerCandidate.mkPartResolved (offset - i) (i + 1)
            else ScannerCandidate.mkPart (offset - i) (i + 1))
    else none

end ValuePredicate

/-- Collected semantics of the `AccFilter` iterator from
`procmem_access/src/util/acc_filter.rs`.  The Rust closure takes
`&mut Option<T>` and the current item and returns an optional emitted item;
here `f` returns the pair (new accumulator state, emitted item).  When the
inner iterator is exhausted the final accumulator is emitted
(`self.state.take()`). -/
def accFilter (f : Option α → α → Option α × Option α) :
    List α → Option α → List α
  | [], st =>
    match st with
    | none => []
    | some a => [a]
  | x :: xs, st =>
    match f st x with
    | (st', none) => accFilter f xs st'
    | (st', some out) => out :: accFilter f xs st'

namespace ScannerCandidate

/-- The closure passed by `ScannerCandidate::merge_sorted` to `AccFilter`:
on an empty accumulator, stash the item (`acc.replace(curr)` returns the old
`None`); otherwise try to merge in place, and on failure emit the old
accumulator and stash the returned right candidate. -/
def candAccStep (acc : Option ScannerCandidate) (curr : ScannerCandidate) :
    Option ScannerCandidate × Option ScannerCandidate :=
  match acc with
  | none => (some curr, none)
  | some a =>
    match tryMergeMut a curr with
    | .ok m => (some m, none)
    | .error other => (some other, some a)

/-- Embeds `ScannerCandidate::merge_sorted`, collected to a list. -/
def mergeSorted (l : List ScannerCandidate) : List ScannerCandidate :=
  accFilter candAccStep l none

/-- The `Ord` instance on `ScannerCandidate`: lexicographic by
`(offset, start_offset, length)`, with the stored `start_offset` compared
under Rust's `Option` ordering (`None` first). -/
def candLe (a b : ScannerCandidate) : Bool :=
  if a.offset ≠ b.offset then a.offset ≤ b.offset
  else
    match a.startOff, b.startOff with
    | none, none => a.length ≤ b.length
    | none, some _ => true
    | some _, none => false
    | some x, some y => if x ≠ y then x ≤ y else a.length ≤ b.length

/-- Insertion step of the sort used by `resolvePart`. -/
def insort (c : ScannerCandidate) :
    List ScannerCandidate → List ScannerCandidate
  | [] => [c]
  | d :: rest => if candLe c d then c :: d :: rest else d :: insort c rest

/-- Insertion sort by `candLe` (stable, like `slice::sort`). -/
def sortCands : List ScannerCandidate → List ScannerCandidate
  | [] => []
  | c :: rest => insort c (sortCands rest)

end ScannerCandidate

/-- One step of `StreamScanner::on_byte` over the candidate vector: the
`while` loop that walks the live candidates in index order, skipping those
whose `end_offset` differs from the current offset, and otherwise applying
the predicate's `update_candidate` verdict.  Returns the surviving
candidates (in order) and the matches emitted by the loop; `none` models a
panic inside `update_candidate`.  The callback is modelled as collecting
every match and always returning `true`. -/
def onByteGo (p : ValuePredicate) (offset byte : Nat) :
    List ScannerCandidate → Option (List ScannerCandidate × List (Nat × Nat))
  | [] => some ([], [])
  | c :: rest =>
    if c.endOffset ≠ offset then
      (onByteGo p offset byte rest).map fun r => (c :: r.1, r.2)
    else
      match p.updateCandidate offset byte c with
      | none => none
      | some .advance => (onByteGo p offset byte rest).map fun r => (c.advance :: r.1, r.2)
      | some .skip => (onByteGo p offset byte rest).map fun r => (c :: r.1, r.2)
      | some .remove => onByteGo p offset byte rest
      | some .resolve =>
        if c.isPart then
          (onByteGo p offset byte rest).map fun r => (c :: r.1, r.2)
        else
          (onByteGo p offset byte rest).map fun r =>
            (r.1, (c.resolve.offset, c.resolve.length) :: r.2)

/-- Embeds `StreamScanner::on_byte`: run the update loop, then ask the
predicate to start a new candidate and push it onto the live set. -/
def onByte (p : ValuePredicate) (offset byte : Nat)
    (cands : List ScannerCandidate) :
    Option (List ScannerCandidate × List (Nat × Nat)) :=
  (onByteGo p offset byte cands).map fun r =>
    match p.tryStartCandidate offset byte with
    | none => (r.1, r.2)
    | some c => (r.1 ++ [c], r.2)

/-- The byte-stream loop shared by `scan_once` and `scan_partial`: feed each
byte to `onByte`, advancing the offset with saturating addition. -/
def scanBytes (p : ValuePredicate) :
    List Nat → Nat → List ScannerCandidate →
    Option (List ScannerCandidate × List (Nat × Nat))
  | [], _, cands => some (cands, [])
  | b :: rest, offset, cands =>
    match onByte p offset b cands with
    | none => none
    | some (cands', es) =>
      (scanBytes p rest (satAdd offset 1) cands').map fun r => (r.1, es ++ r.2)

/-- Embeds `StreamScanner::scan_once`: `self.reset()` first (the incoming
candidate state `_st` is discarded), then drive the stream.  Returns the
scanner's candidate state when the call returns together with the emitted
matches; `none` models a panic. -/
def scanOnce (p : ValuePredicate) (offset : Nat) (stream : List Nat)
    (_st : List ScannerCandidate) :
    Option (List ScannerCandidate × List (Nat × Nat)) :=
  scanBytes p stream offset []

/-- Embeds `StreamScanner::scan_partial` (source name ends in the word
`partial`): state is kept, `on_start` seeds tail candidates at the first
byte only (before `on_byte` runs on that same byte), and `on_end` is a
no-op. -/
def scanPart (p : ValuePredicate) (offset : Nat) (stream : List Nat)
    (cands : List ScannerCandidate) :
    Option (List ScannerCandidate × List (Nat × Nat)) :=
  match stream with
  | [] => some (cands, [])
  | b :: rest =>
    match onByte p offset b (cands ++ p.tryStartPartCands offset b) with
    | none => none
    | some (cands', es) =>
      (scanBytes p rest (satAdd offset 1) cands').map fun r => (r.1, es ++ r.2)

/-- Modelled from the spec: `resolve_partial` is sketched in the source
(`StreamScanner::merge_mut` has a `todo!()` body and no resolving pass
exists under `procmem_scan`), so this follows §4.6 of the specification:
sort the candidates, sweep them through the candidate merge operator
(`ScannerCandidate::merge_sorted`, which does exist in the source), yield
every candidate that is non-partial and resolved after the sweep, and
retain the remainder. -/
def resolvePart (cands : List ScannerCandidate) :
    List (Nat × Nat) × List ScannerCandidate :=
  let merged := ScannerCandidate.mergeSorted (ScannerCandidate.sortCands cands)
  (merged.filterMap fun c =>
      if !c.isPart && c.resolved then some (c.offset, c.length) else none,
   merged.filter fun c => c.isPart || !c.resolved)

/-- Embeds `MemoryPagePermissions` from `procmem_access/src/memory/map.rs`:
a `u8` bitset with masks read = 1, write = 2, exec = 4, share = 8. -/
structure MemoryPagePermissions where
  bits : Nat
deriving DecidableEq, Repr

namespace MemoryPagePermissions

/-- Embeds `MemoryPagePermissions::new`. -/
def new (read write exec share : Bool) : MemoryPagePermissions :=
  { bits := Nat.lor (Nat.lor (cond read 1 0) (cond write 2 0))
                    (Nat.lor (cond exec 4 0) (cond share 8 0)) }

/-- Embeds the `BitAnd` implementation on permissions. -/
def and (a b : MemoryPagePermissions) : MemoryPagePermissions :=
  { bits := Nat.land a.bits b.bits }

end MemoryPagePermissions

/-- Embeds `MemoryPageType`; `PathBuf` payloads are modelled as `String`. -/
inductive MemoryPageType where
  | unknown
  | stack
  | heap
  | anon
  | processExecutable (path : String)
  | file (path : String)
deriving DecidableEq, Repr

/-- Embeds `MemoryPage`: the `[OffsetType; 2]` address range is the pair
`(start, end)`. -/
structure MemoryPage where
  addressRange : Nat × Nat
  permissions : MemoryPagePermissions
  offset : Nat
  pageType : MemoryPageType
deriving DecidableEq, Repr

namespace MemoryPage

/-- Embeds `MemoryPage::start`. -/
def startAddr (p : MemoryPage) : Nat := p.addressRange.1

/-- Embeds `MemoryPage::end`. -/
def endAddr (p : MemoryPage) : Nat := p.addressRange.2

/-- Embeds `MemoryPage::try_merge_mut`.  `Except.ok` carries the merged left
page (the Rust method mutates `self`); `Except.error` carries the returned
right page, with the left one untouched. -/
def tryMergeMut (a b : MemoryPage) : Except MemoryPage MemoryPage :=
  if a.endAddr < b.startAddr ∨ b.endAddr < a.startAddr then .error b
  else .ok { addressRange := (min a.startAddr b.startAddr, max a.endAddr b.endAddr),
             permissions := a.permissions.and b.permissions,
             offset := min a.offset b.offset,
             pageType := if a.pageType ≠ b.pageType then .unknown else a.pageType }

/-- The closure passed by `MemoryPage::merge_sorted` to `AccFilter`
(identical in shape to the candidate one). -/
def pageAccStep (acc : Option MemoryPage) (curr : MemoryPage) :
    Option MemoryPage × Option MemoryPage :=
  match acc with
  | none => (some curr, none)
  | some a =>
    match tryMergeMut a curr with
    | .ok m => (some m, none)
    | .error other => (some other, some a)

/-- Embeds `MemoryPage::merge_sorted`, collected to a list. -/
def mergeSorted (l : List MemoryPage) : List MemoryPage :=
  accFilter pageAccStep l none

end MemoryPage

/-- Embeds the default `MemoryMap::containing_page` method: the first page
in `pages()` order with `offset >= p.address_range[0]` and
`offset <= p.address_range[1]` (the end bound inclusive). -/
def containingPage (pages : List MemoryPage) (offset : Nat) :
    Option MemoryPage :=
  pages.find? fun p =>
    decide (p.addressRange.1 ≤ offset) && decide (offset ≤ p.addressRange.2)

/-- Lock errors surfaced by `MemoryLock` (`LockError::AlreadyLocked`,
`UnlockError::NotLocked`; platform errors are out of scope of the model,
which treats the freeze and unfreeze events as always succeeding). -/
inductive LockError where
  | alreadyLocked
  | notLocked
deriving DecidableEq, Repr

/-- State of the ptrace lock from
`procmem_access/src/platform/ptrace/lock.rs`: the `lock_counter` field,
together with whether the target is currently frozen (`ptrace_stop` sets
it, `ptrace_cont` clears it). -/
structure LockState where
  counter : Nat
  frozen : Bool
deriving DecidableEq, Repr

namespace LockState

/-- State right after `PtraceLock::new`: attached (`PTRACE_SEIZE` does not
stop the target), counter zero. -/
def init : LockState := { counter := 0, frozen := false }

/-- Embeds `MemoryLock::lock` for `PtraceLock`: at counter zero, stop the
target and set the counter to one (returning `true` = newly acquired); at
the sentinel `usizeMax`, fail with `AlreadyLocked`; otherwise increment. -/
def lock (s : LockState) : Except LockError (Bool × LockState) :=
  if s.counter = 0 then .ok (true, { counter := 1, frozen := true })
  else if s.counter = usizeMax then .error .alreadyLocked
  else .ok (false, { counter := s.counter + 1, frozen := s.frozen })

/-- Embeds `MemoryLock::lock_exlusive` (sic) for `PtraceLock`: only from
counter zero, delegate to `lock` and then jump the counter to the sentinel
`usizeMax`. -/
def lockExlusive (s : LockState) : Except LockError LockState :=
  if s.counter = 0 then
    match s.lock with
    | .error e => .error e
    | .ok (_, s') => .ok { counter := usizeMax, frozen := s'.frozen }
  else .error .alreadyLocked

/-- Embeds `MemoryLock::unlock` for `PtraceLock`: counter zero fails with
`NotLocked`; counter one or the sentinel continues the target and resets to
zero (returning `true` = fully released); otherwise decrement. -/
def unlock (s : LockState) : Except LockError (Bool × LockState) :=
  if s.counter = 0 then .error .notLocked
  else if s.counter = 1 ∨ s.counter = usizeMax then
    .ok (true, { counter := 0, frozen := false })
  else .ok (false, { counter := s.counter - 1, frozen := s.frozen })

end LockState

/-- An event in a lock usage history: a `lock()` or an `unlock()` call. -/
inductive LockOp where
  | lock
  | unlock
deriving DecidableEq, Repr

/-- Run a sequence of lock operations; `none` when any call fails. -/
def runOps : LockState → List LockOp → Option LockState
  | s, [] => some s
  | s, .lock :: rest =>
    match s.lock with
    | .error _ => none
    | .ok (_, s') => runOps s' rest
  | s, .unlock :: rest =>
    match s.unlock with
    | .error _ => none
    | .ok (_, s') => runOps s' rest

/-- A balanced history: as many `lock()` as `unlock()` calls. -/
def balanced (ops : List LockOp) : Prop :=
  ops.count LockOp.lock = ops.count LockOp.unlock

/-- Split a character list at every occurrence of `sep`, like Rust's
`str::split` with a one-character pattern (an empty input yields one empty
piece). -/
def splitAllChar (sep : Char) : List Char → List (List Char)
  | [] => [[]]
  | c :: rest =>
    if c = sep then [] :: splitAllChar sep rest
    else
      match splitAllChar sep rest with
      | [] => [[c]]
      | h :: t => (c :: h) :: t

/-- Split at occurrences of `sep` into at most `n` pieces, like Rust's
`str::splitn` with a one-character pattern: the last piece holds the
unsplit remainder. -/
def splitnChar (sep : Char) : Nat → List Char → List (List Char)
  | 0, _ => []
  | 1, s => [s]
  | _ + 2, [] => [[]]
  | n + 2, c :: rest =>
    if c = sep then [] :: splitnChar sep (n + 1) rest
    else
      match splitnChar sep (n + 2) rest with
      | [] => [[c]]
      | h :: t => (c :: h) :: t

/-- Value of a hexadecimal digit character, if any. -/
def hexDigit? (c : Char) : Option Nat :=
  if '0' ≤ c ∧ c ≤ '9' then some (c.toNat - '0'.toNat)
  else if 'a' ≤ c ∧ c ≤ 'f' then some (c.toNat - 'a'.toNat + 10)
  else if 'A' ≤ c ∧ c ≤ 'F' then some (c.toNat - 'A'.toNat + 10)
  else none

/-- Value of a decimal digit character, if any. -/
def decDigit? (c : Char) : Option Nat :=
  if '0' ≤ c ∧ c ≤ '9' then some (c.toNat - '0'.toNat) else none

/-- Unsigned integer parsing in a given radix, like
`usize::from_str_radix` / `str::parse::<usize>` on the inputs in scope: an
optional leading `+`, then at least one digit.  (Overflow of `usize` is not
modelled; the concrete inputs in this development are far below it.) -/
def parseRadix (radix : Nat) (digit? : Char → Option Nat) (s : List Char) :
    Option Nat :=
  let s := match s with
    | '+' :: rest => rest
    | _ => s
  match s with
  | [] => none
  | _ => s.foldl (fun acc c =>
      match acc, digit? c with
      | some a, some d => some (a * radix + d)
      | _, _ => none) (some 0)

/-- Whitespace trim, like `str::trim` (the inputs in scope are ASCII). -/
def trimChars (s : List Char) : List Char :=
  ((s.dropWhile Char.isWhitespace).reverse.dropWhile Char.isWhitespace).reverse

/-- Embeds `MemoryPagePermissionsParseError` from
`procmem_access/src/platform/procfs/map.rs`. -/
inductive PermsParseError where
  | invalidRead (ch : Option Char)
  | invalidWrite (ch : Option Char)
  | invalidExec (ch : Option Char)
  | invalidShare (ch : Option Char)
deriving DecidableEq, Repr

/-- Embeds `MemoryPageParseError` from
`procmem_access/src/platform/procfs/map.rs` (the `ParseIntError` payload is
dropped). -/
inductive PageParseError where
  | invalidRange
  | invalidPerms
  | invalidOffset
  | invalidDevnode
  | invalidInode
  | invalidEntry
  | parseUsize
  | parseMapPerms (e : PermsParseError)
deriving DecidableEq, Repr

/-- Embeds `ProcfsMemoryMap::parse_page_permissions`: trim, then consume
four characters in order (`r` or dash, `w` or dash, `x` or dash, `s` or
`p`); anything after the fourth is ignored. -/
def parsePagePermissions (s : List Char) :
    Except PermsParseError MemoryPagePermissions := do
  let cs := trimChars s
  let read ← match cs.get? 0 with
    | some 'r' => pure true
    | some '-' => pure false
    | ch => throw (.invalidRead ch)
  let write ← match cs.get? 1 with
    | some 'w' => pure true
    | some '-' => pure false
    | ch => throw (.invalidWrite ch)
  let exec ← match cs.get? 2 with
    | some 'x' => pure true
    | some '-' => pure false
    | ch => throw (.invalidExec ch)
  let share ← match cs.get? 3 with
    | some 's' => pure true
    | some 'p' => pure false
    | ch => throw (.invalidShare ch)
  pure (MemoryPagePermissions.new read write exec share)

/-- Embeds `ProcfsMemoryMap::parse_page_type`: after trimming, recognize
`[stack]`, `[heap]`, the empty string (anonymous), other bracketed tags and
`(deleted)` suffixes (unknown), the process executable path, and file
paths. -/
def parsePageType (s : List Char) (exePath : Option (List Char)) :
    MemoryPageType :=
  let t := trimChars s
  if t = "[stack]".toList then .stack
  else if t = "[heap]".toList then .heap
  else if t = [] then .anon
  else if (match t with | '[' :: _ => true | _ => false) &&
          t.getLast? == some ']' then .unknown
  else if "(deleted)".toList.isSuffixOf t then .unknown
  else
    match exePath with
    | some exe => if t = exe then .processExecutable (String.mk t)
                  else .file (String.mk t)
    | none => .file (String.mk t)

/-- The `split.next().ok_or(err)?` pattern of `parse_map_line`: the `i`-th
piece, or the given error. -/
def nextField (l : List (List Char)) (i : Nat) (e : PageParseError) :
    Except PageParseError (List Char) :=
  match l.get? i with
  | some f => .ok f
  | none => .error e

/-- An `Option` lifted into the parser's error monad. -/
def orErr (o : Option α) (e : PageParseError) : Except PageParseError α :=
  match o with
  | some a => .ok a
  | none => .error e

/-- Embeds `ProcfsMemoryMap::parse_map_line`: split the line at single
spaces into at most six pieces; parse piece 0 as `<hex>-<hex>`, piece 1 as
permissions; consume pieces 2 and 3 without using them (the source labels
their absence `InvalidDevnode` / `InvalidInode`); parse piece 4 as the
decimal `offset`; derive the page type from piece 5. -/
def parseMapLine (line : List Char) (exePath : Option (List Char)) :
    Except PageParseError MemoryPage := do
  let fields := splitnChar ' ' 6 line
  let f0 ← nextField fields 0 .invalidRange
  let parts := splitAllChar '-' f0
  let fromS ← nextField parts 0 .invalidRange
  let toS ← nextField parts 1 .invalidRange
  let fromN ← orErr (parseRadix 16 hexDigit? fromS) .parseUsize
  let toN ← orErr (parseRadix 16 hexDigit? toS) .parseUsize
  let f1 ← nextField fields 1 .invalidPerms
  let perms ← match parsePagePermissions f1 with
    | .ok p => pure p
    | .error e => throw (.parseMapPerms e)
  let _ ← nextField fields 2 .invalidDevnode
  let _ ← nextField fields 3 .invalidInode
  let f4 ← nextField fields 4 .invalidOffset
  let offset ← orErr (parseRadix 10 decDigit? f4) .parseUsize
  let f5 ← nextField fields 5 .invalidEntry
  pure { addressRange := (fromN, toN), permissions := perms,
         offset := offset, pageType := parsePageType f5 exePath }

/-!
Claim theorems.
-/

/-- C1: the claimed equivalence between `scan_once` over a whole stream and
chunked `scan_partial` runs fails on the code.  For the pattern `[3, 4]`
over the stream `[3, 4, 3, 4, 5, 6]` at offset 1 (the repository's own
`test_scan_scan_partial_equal` data), partitioned into the ascending
contiguous chunks `[3, 4, 3]` at offset 1 and `[4, 5, 6]` at offset 4:
`scan_once` emits `(1, 2)` and `(3, 2)` and returns, but the second
`scan_partial` call panics (the `on_byte` loop consults `update_candidate`
on the already-resolved tail candidate seeded at the chunk's first byte,
indexing the two-byte pattern at position 2), so the chunked run never
reaches the resolution step. -/
theorem c1_chunked_scan_panics :
    scanOnce ⟨[3, 4], 1, true⟩ 1 [3, 4, 3, 4, 5, 6] [] =
      some ([], [(1, 2), (3, 2)]) ∧
    scanPart ⟨[3, 4], 1, true⟩ 1 [3, 4, 3] [] =
      some ([⟨3, 1, false, none⟩], [(1, 2)]) ∧
    scanPart ⟨[3, 4], 1, true⟩ 4 [4, 5, 6] [⟨3, 1, false, none⟩] = none :=
  ⟨rfl, rfl, rfl⟩

/-- C2: `try_start_candidate` does return an already-resolved candidate for
the single-byte pattern `0x7F`, but the scanner does not emit it without
touching the live set: `on_byte` pushes it into the live candidate vector,
and on the following byte the update loop consults `update_candidate` on
it, indexing the one-byte pattern at position 1 — a panic.  Scanning
`[0x7F, 0, 0x7F]` at offset 100 therefore emits nothing instead of the
claimed `(100, 1)` and `(102, 1)`. -/
theorem c2_single_byte_scan_panics :
    ValuePredicate.tryStartCandidate ⟨[127], 1, false⟩ 100 127 =
      some ⟨100, 1, true, none⟩ ∧
    scanOnce ⟨[127], 1, false⟩ 100 [127, 0, 127] [] = none :=
  ⟨rfl, rfl⟩

/-- C3 counterexample: `scan_once` does not clear the candidate state after
the stream is exhausted.  Scanning the one-byte stream `[3]` with the
pattern `[3, 4]` returns with the unresolved candidate born at offset 1
still in the live set, which is therefore not empty when `scan_once`
returns. -/
theorem c3_trailing_state_not_cleared :
    scanOnce ⟨[3, 4], 1, true⟩ 1 [3] [] =
      some ([⟨1, 1, false, none⟩], []) ∧
    ([⟨1, 1, false, none⟩] : List ScannerCandidate) ≠ [] :=
  ⟨rfl, by decide⟩

/-- C3 amended: `scan_once` clears the candidate state before driving the
stream — its result is independent of whatever candidates (including
partial candidates from earlier scans) the scanner held when it was
called — but not after, so the returned live set holds the unresolved
candidates of the scan just performed until a later call discards them. -/
theorem c3_reset_before_only (p : ValuePredicate) (offset : Nat)
    (stream : List Nat) (st₀ st₁ : List ScannerCandidate) :
    scanOnce p offset stream st₀ = scanOnce p offset stream st₁ :=
  rfl

/-- C8: on a well-formed Linux region-file line whose fields follow the
documented order range, perms, offset, dev, inode, path, the parser does
not take the field immediately after the permissions as the file offset:
it discards that field and the device field (labelling their absence
`InvalidDevnode` and `InvalidInode`) and parses the fifth field — the
inode position — as the decimal offset.  Here the line has offset field
`30` and inode field `5`, and the parsed page reports offset 5. -/
theorem c8_offset_read_from_inode_field :
    parseMapLine "100-1f0 rw-p 30 00:11 5 [heap]".toList none =
      .ok { addressRange := (256, 496), permissions := ⟨3⟩,
            offset := 5, pageType := .heap } ∧
    (5 : Nat) ≠ 30 :=
  ⟨rfl, by decide⟩

/-- Unfolding lemma for the candidate merge: success case. -/
theorem candMerge_ok_iff (a b m : ScannerCandidate) :
    a.tryMergeMut b = .ok m ↔
      (a.offset = b.offset ∧
        ¬(a.endOffset < b.startOffset ∨ b.endOffset < a.startOffset) ∧
        m = { offset := a.offset, length := max a.length b.length,
              resolved := a.resolved || b.resolved,
              startOff := ScannerCandidate.optMin a.startOff b.startOff }) := by
  unfold ScannerCandidate.tryMergeMut
  split_ifs with h1 h2
  · simp [h1]
  · simp [h2, not_ne_iff.mp h1]
  · simp only [Except.ok.injEq, not_ne_iff.mp h1, h2, not_false_iff, true_and]
    exact eq_comm

/-- Unfolding lemma for the candidate merge: failure case. -/
theorem candMerge_error_iff (a b c : ScannerCandidate) :
    a.tryMergeMut b = .error c ↔
      (c = b ∧ (a.offset ≠ b.offset ∨
        a.endOffset < b.startOffset ∨ b.endOffset < a.startOffset)) := by
  unfold ScannerCandidate.tryMergeMut
  split_ifs with h1 h2
  · simp [h1, eq_comm]
  · simp [h2, eq_comm]
  · simp [h1, h2]

/-- C4 counterexample: two candidates with the same offset whose
definitely-matched half-open intervals are disjoint (the first covers
offsets 1 to 2 exclusive, the second 2 to 3 exclusive, so they merely
touch) are nevertheless merged successfully by `try_merge_mut`, whereas
the claim's "intersect" condition says the merge must fail. -/
theorem c4_touching_intervals_merge :
    ScannerCandidate.tryMergeMut ⟨1, 1, false, none⟩ ⟨1, 2, false, some 2⟩ =
      .ok ⟨1, 2, false, none⟩ ∧
    ScannerCandidate.endOffset ⟨1, 1, false, none⟩ ≤
      ScannerCandidate.startOffset ⟨1, 2, false, some 2⟩ :=
  ⟨rfl, by decide⟩

/-- C4 amended: the candidate merge succeeds if and only if the two
candidates share the same offset and their definitely-matched intervals
touch or overlap (`other.start_offset ≤ self.end_offset` and
`self.start_offset ≤ other.end_offset`, adjacency included); when it
succeeds, the merged candidate keeps the shared offset and has the longer
of the two lengths, the logical OR of the two resolved flags, and the
smaller of the two stored `start_offset` fields (under the `Option` order
in which a natural start, `none`, is smallest); when it fails, the left
candidate is unchanged (the merge is value-level here) and the right
candidate is returned. -/
theorem c4_candidate_merge_rule (a b : ScannerCandidate) :
    ((∃ m, a.tryMergeMut b = .ok m) ↔
      (a.offset = b.offset ∧ b.startOffset ≤ a.endOffset ∧
        a.startOffset ≤ b.endOffset)) ∧
    (∀ m, a.tryMergeMut b = .ok m →
      m.offset = a.offset ∧ m.length = max a.length b.length ∧
      m.resolved = (a.resolved || b.resolved) ∧
      m.startOff = ScannerCandidate.optMin a.startOff b.startOff) ∧
    (∀ c, a.tryMergeMut b = .error c → c = b) := by
  refine ⟨⟨?_, ?_⟩, ?_, ?_⟩
  · rintro ⟨m, hm⟩
    rcases (candMerge_ok_iff a b m).mp hm with ⟨h1, h2, _⟩
    rcases not_or.mp h2 with ⟨h3, h4⟩
    exact ⟨h1, le_of_not_lt h3, le_of_not_lt h4⟩
  · rintro ⟨h1, h2, h3⟩
    exact ⟨_, (candMerge_ok_iff a b _).mpr ⟨h1, not_or.mpr ⟨not_lt.mpr h2, not_lt.mpr h3⟩, rfl⟩⟩
  · intro m hm
    rcases (candMerge_ok_iff a b m).mp hm with ⟨h1, _, hm⟩
    simp [hm, h1]
  · intro c hc
    exact ((candMerge_error_iff a b c).mp hc).1

/-- Witness for the amended C4 rule at the repository's own merge test
data: a non-partial candidate of length 3 at offset 8 merges with a
partial candidate of length 4 at offset 8 first observed at offset 10. -/
theorem c4_candidate_merge_rule_witness :
    ∃ m, ScannerCandidate.tryMergeMut ⟨8, 3, false, none⟩ ⟨8, 4, false, some 10⟩ =
      .ok m :=
  (c4_candidate_merge_rule ⟨8, 3, false, none⟩ ⟨8, 4, false, some 10⟩).1.mpr
    (by decide)

/-- Unfolding lemma for the page merge: success case. -/
theorem pageMerge_ok_iff (a b m : MemoryPage) :
    a.tryMergeMut b = .ok m ↔
      (¬(a.endAddr < b.startAddr ∨ b.endAddr < a.startAddr) ∧
        m = { addressRange := (min a.startAddr b.startAddr, max a.endAddr b.endAddr),
              permissions := a.permissions.and b.permissions,
              offset := min a.offset b.offset,
              pageType := if a.pageType ≠ b.pageType then .unknown else a.pageType }) := by
  by_cases h1 : (a.endAddr < b.startAddr ∨ b.endAddr < a.startAddr)
  · simp [MemoryPage.tryMergeMut, if_pos h1, h1]
  · simp only [MemoryPage.tryMergeMut, h1, if_false, Except.ok.injEq,
      not_false_iff, true_and, iff_false, eq_self_iff_true]
    exact eq_comm

/-- Unfolding lemma for the page merge: failure case. -/
theorem pageMerge_error_iff (a b c : MemoryPage) :
    a.tryMergeMut b = .error c ↔
      (c = b ∧ (a.endAddr < b.startAddr ∨ b.endAddr < a.startAddr)) := by
  by_cases h1 : (a.endAddr < b.startAddr ∨ b.endAddr < a.startAddr)
  · simp [MemoryPage.tryMergeMut, if_pos h1, h1, eq_comm]
  · simp [MemoryPage.tryMergeMut, if_neg h1, h1]

/-- C5: the page merge succeeds if and only if the two address ranges touch
or overlap (`A.end ≥ B.start` and `B.end ≥ A.start`); the merged page
spans from the smaller start to the larger end, its permissions are the
bitwise AND of the two permission sets, its offset is the smaller of the
two offsets, and its page type is A's when both types agree and `Unknown`
otherwise; a failed merge returns the right page with the left untouched. -/
theorem c5_page_merge_rule (a b : MemoryPage) :
    ((∃ m, a.tryMergeMut b = .ok m) ↔
      (b.startAddr ≤ a.endAddr ∧ a.startAddr ≤ b.endAddr)) ∧
    (∀ m, a.tryMergeMut b = .ok m →
      m.addressRange = (min a.startAddr b.startAddr, max a.endAddr b.endAddr) ∧
      m.permissions.bits = Nat.land a.permissions.bits b.permissions.bits ∧
      m.offset = min a.offset b.offset ∧
      m.pageType = (if a.pageType = b.pageType then a.pageType else .unknown)) ∧
    (∀ c, a.tryMergeMut b = .error c → c = b) := by
  refine ⟨⟨?_, ?_⟩, ?_, ?_⟩
  · rintro ⟨m, hm⟩
    rcases (pageMerge_ok_iff a b m).mp hm with ⟨h1, _⟩
    rcases not_or.mp h1 with ⟨h3, h4⟩
    exact ⟨le_of_not_lt h3, le_of_not_lt h4⟩
  · rintro ⟨h1, h2⟩
    exact ⟨_, (pageMerge_ok_iff a b _).mpr
      ⟨not_or.mpr ⟨not_lt.mpr h1, not_lt.mpr h2⟩, rfl⟩⟩
  · intro m hm
    rcases (pageMerge_ok_iff a b m).mp hm with ⟨_, hm⟩
    subst hm
    refine ⟨rfl, rfl, rfl, ?_⟩
    by_cases h : a.pageType = b.pageType <;> simp [h]
  · intro c hc
    exact ((pageMerge_error_iff a b c).mp hc).1

/-- Witness for the C5 rule at the repository's own page merge test data:
the pages `[100, 200)` and `[200, 300)` touch and merge. -/
theorem c5_page_merge_rule_witness :
    ∃ m, MemoryPage.tryMergeMut
      ⟨(100, 200), MemoryPagePermissions.new true true false true, 0, .anon⟩
      ⟨(200, 300), MemoryPagePermissions.new true false true false, 100, .heap⟩ =
      .ok m :=
  (c5_page_merge_rule _ _).1.mpr (by decide)

/-- First-match characterization of `List.find?`: a found element occurs at
an index before which no element satisfies the predicate. -/
theorem find?_first (pr : α → Bool) :
    ∀ (l : List α) (a : α), l.find? pr = some a →
      ∃ i, l.get? i = some a ∧
        ∀ j, j < i → ∀ b, l.get? j = some b → pr b = false := by
  intro l
  induction l with
  | nil => intro a h; simp [List.find?] at h
  | cons x xs ih =>
    intro a h
    by_cases hx : pr x
    · rw [List.find?_cons_of_pos _ hx] at h
      cases h
      exact ⟨0, rfl, fun j hj => absurd hj (Nat.not_lt_zero j)⟩
    · rw [List.find?_cons_of_neg _ hx] at h
      obtain ⟨i, hi, hj⟩ := ih a h
      refine ⟨i + 1, by simpa using hi, ?_⟩
      intro j hj' b hb
      cases j with
      | zero =>
        simp only [List.get?_cons_zero, Option.some.injEq] at hb
        subst hb
        exact eq_false_of_ne_true hx
      | succ k =>
        exact hj k (Nat.lt_of_succ_lt_succ hj') b (by simpa using hb)

/-- C10: the default `containing_page` lookup returns the first page in
order whose range contains the offset with the end bound inclusive
(`p.start ≤ o` and `o ≤ p.end`), and `none` exactly when no page satisfies
that inclusive condition; in particular an offset equal to a page's end
address — outside the half-open range — is still reported as contained. -/
theorem c10_containing_page_rule (pages : List MemoryPage) (offset : Nat) :
    (containingPage pages offset = none ↔
      ∀ p ∈ pages, ¬(p.startAddr ≤ offset ∧ offset ≤ p.endAddr)) ∧
    (∀ p, containingPage pages offset = some p →
      (p.startAddr ≤ offset ∧ offset ≤ p.endAddr) ∧
      ∃ i, pages.get? i = some p ∧
        ∀ j, j < i → ∀ q, pages.get? j = some q →
          ¬(q.startAddr ≤ offset ∧ offset ≤ q.endAddr)) ∧
    (∀ p : MemoryPage, p.startAddr ≤ p.endAddr →
      containingPage [p] p.endAddr = some p) := by
  refine ⟨?_, ?_, ?_⟩
  · rw [containingPage, List.find?_eq_none]
    constructor
    · intro h p hp hc
      have := h p hp
      simp only [MemoryPage.startAddr, MemoryPage.endAddr] at hc
      simp only [Bool.and_eq_true, decide_eq_true_eq, not_and, not_le] at this
      exact absurd (this hc.1) (not_lt.mpr hc.2)
    · intro h p hp
      have := h p hp
      simp only [MemoryPage.startAddr, MemoryPage.endAddr, not_and] at this
      simp only [Bool.and_eq_true, decide_eq_true_eq, not_and]
      exact fun h1 h2 => this h1 h2
  · intro p hp
    have hfound := List.find?_some hp
    simp only [Bool.and_eq_true, decide_eq_true_eq] at hfound
    refine ⟨hfound, ?_⟩
    obtain ⟨i, hi, hj⟩ := find?_first _ pages p hp
    refine ⟨i, hi, ?_⟩
    intro j hij q hq hcond
    have := hj j hij q hq
    simp only [MemoryPage.startAddr, MemoryPage.endAddr] at hcond
    simp only [Bool.and_eq_false_iff, decide_eq_false_iff_not, not_le] at this
    rcases this with h1 | h2
    · exact absurd hcond.1 (not_le.mpr h1)
    · exact absurd hcond.2 (not_le.mpr h2)
  · intro p h
    simp [containingPage, List.find?, MemoryPage.startAddr, MemoryPage.endAddr] at h ⊢
    simp [h]

/-- Witness for C10: the offset 200, equal to the end address of the page
`[100, 200)`, is reported as contained in it. -/
theorem c10_containing_page_rule_witness :
    containingPage [⟨(100, 200), ⟨0⟩, 0, .anon⟩] 200 =
      some ⟨(100, 200), ⟨0⟩, 0, .anon⟩ :=
  (c10_containing_page_rule [⟨(100, 200), ⟨0⟩, 0, .anon⟩] 0).2.2
    ⟨(100, 200), ⟨0⟩, 0, .anon⟩ (by decide)

/-- Membership in the descending index sequence. -/
theorem descRange_mem (n i : Nat) :
    i ∈ ValuePredicate.descRange n ↔ 1 ≤ i ∧ i < n := by
  induction n with
  | zero => simp [ValuePredicate.descRange]
  | succ n ih =>
    rw [ValuePredicate.descRange]
    by_cases h : n = 0
    · subst h; simp; omega
    · simp only [h, if_false, List.mem_cons, ih]
      omega

/-- The descending index sequence has no duplicates. -/
theorem descRange_nodup (n : Nat) : (ValuePredicate.descRange n).Nodup := by
  induction n with
  | zero => simp [ValuePredicate.descRange]
  | succ n ih =>
    rw [ValuePredicate.descRange]
    by_cases h : n = 0
    · simp [h]
    · simp only [h, if_false, List.nodup_cons]
      exact ⟨fun hmem => absurd ((descRange_mem n n).mp hmem).2 (lt_irrefl n), ih⟩

/-- The candidate built by `try_start_partial_candidates` at a legal
position `i`, written with its `start_offset` collapsed to the current
offset. -/
theorem tailCand_build_eq (p : ValuePredicate) (offset i : Nat)
    (hpos : i < offset) :
    (if i + 1 == p.bytes.length then
        ScannerCandidate.mkPartResolved (offset - i) (i + 1)
      else ScannerCandidate.mkPart (offset - i) (i + 1)) =
      ⟨offset - i, i + 1, decide (i + 1 = p.bytes.length), some offset⟩ := by
  have harith : offset - i + (i + 1) - 1 = offset := by omega
  by_cases h : i + 1 = p.bytes.length
  · simp [ScannerCandidate.mkPartResolved, ScannerCandidate.mkPart, h, harith]
    omega
  · simp [ScannerCandidate.mkPart, beq_iff_eq, h, harith]

/-- C7: `try_start_partial_candidates` returns exactly one candidate per
position `i ≥ 1` in the pattern's byte image at which the current byte
equals `pattern[i]` and `offset - i` is a positive, alignment-respecting
start; each such candidate starts (in the definitely-matched sense) at the
current offset, has length `i + 1`, and is resolved precisely when
`i + 1` equals the pattern length. -/
theorem c7_tail_candidate_enumeration (p : ValuePredicate)
    (offset byte : Nat) :
    (∀ c, c ∈ p.tryStartPartCands offset byte ↔
      ∃ i, 1 ≤ i ∧ i < p.bytes.length ∧ p.bytes.getD i 0 = byte ∧
        i < offset ∧ p.offsetAligned (offset - i) = true ∧
        c = ⟨offset - i, i + 1, decide (i + 1 = p.bytes.length), some offset⟩) ∧
    (p.tryStartPartCands offset byte).Nodup := by
  have hstep : ∀ i c,
      (if byte ≠ p.bytes.getD i 0 then none
       else if offset - i = 0 then none
       else if p.offsetAligned (offset - i) then
         some (if i + 1 == p.bytes.length then
                 ScannerCandidate.mkPartResolved (offset - i) (i + 1)
               else ScannerCandidate.mkPart (offset - i) (i + 1))
       else none) = some c ↔
      (p.bytes.getD i 0 = byte ∧ i < offset ∧
        p.offsetAligned (offset - i) = true ∧
        c = ⟨offset - i, i + 1, decide (i + 1 = p.bytes.length), some offset⟩) := by
    intro i c
    by_cases hb : byte ≠ p.bytes.getD i 0
    · rw [if_pos hb]
      constructor
      · intro hcon; exact Option.noConfusion hcon
      · rintro ⟨hb', _, _, _⟩; exact absurd hb'.symm hb
    · rw [if_neg hb]
      rw [not_ne_iff] at hb
      by_cases hz : offset - i = 0
      · rw [if_pos hz]
        constructor
        · intro hcon; exact Option.noConfusion hcon
        · rintro ⟨_, hlt, _, _⟩; omega
      · rw [if_neg hz]
        have hpos : i < offset := by omega
        by_cases ha : p.offsetAligned (offset - i) = true
        · rw [if_pos ha, tailCand_build_eq p offset i hpos]
          constructor
          · intro h
            exact ⟨hb.symm, hpos, ha, (Option.some.inj h).symm⟩
          · rintro ⟨_, _, _, hc⟩
            rw [hc]
        · rw [if_neg ha]
          constructor
          · intro hcon; exact Option.noConfusion hcon
          · rintro ⟨_, _, ha', _⟩; exact absurd ha' ha
  constructor
  · intro c
    simp only [ValuePredicate.tryStartPartCands, List.mem_filterMap,
      descRange_mem]
    constructor
    · rintro ⟨i, ⟨h1, h2⟩, hf⟩
      rcases (hstep i c).mp hf with ⟨hb, hpos, ha, hc⟩
      exact ⟨i, h1, h2, hb, hpos, ha, hc⟩
    · rintro ⟨i, h1, h2, hb, hpos, ha, hc⟩
      exact ⟨i, ⟨h1, h2⟩, (hstep i c).mpr ⟨hb, hpos, ha, hc⟩⟩
  · refine List.Nodup.filterMap ?_ (descRange_nodup p.bytes.length)
    intro i j c hci hcj
    have hi := (hstep i c).mp hci
    have hj := (hstep j c).mp hcj
    have : i + 1 = j + 1 := by
      rw [show i + 1 = c.length from by rw [hi.2.2.2],
          show j + 1 = c.length from by rw [hj.2.2.2]]
    omega

/-- Witness for C7: at offset 102 over the pattern `[2, 3]` (unaligned),
the byte 3 matches position 1 and yields the tail candidate that starts at
offset 101, was first observed at 102, covers two bytes, and is already
resolved. -/
theorem c7_tail_candidate_enumeration_witness :
    (⟨101, 2, true, some 102⟩ : ScannerCandidate) ∈
      ValuePredicate.tryStartPartCands ⟨[2, 3], 1, false⟩ 102 3 :=
  ((c7_tail_candidate_enumeration ⟨[2, 3], 1, false⟩ 102 3).1 _).mpr
    ⟨1, by decide, by decide, by decide, by decide, by decide, by decide⟩

/-- A successful `lock()` preserves the freeze invariant. -/
theorem lock_step_inv (s₀ : LockState) (b : Bool) (s' : LockState)
    (h : s₀.lock = .ok (b, s'))
    (hinv : s₀.frozen = true ↔ 0 < s₀.counter) :
    s'.frozen = true ↔ 0 < s'.counter := by
  unfold LockState.lock at h
  split_ifs at h with h0 h1
  · cases h
    simp
  · cases h
    simp only
    constructor
    · intro hgt
      omega
    · intro hgt
      exact hinv.mpr (by omega)

/-- A successful `lock()` increments the counter by exactly one. -/
theorem lock_step_counter (s₀ : LockState) (b : Bool) (s' : LockState)
    (h : s₀.lock = .ok (b, s')) : s'.counter = s₀.counter + 1 := by
  unfold LockState.lock at h
  split_ifs at h with h0 h1
  · cases h
    simp [h0]
  · cases h
    rfl

/-- A successful `unlock()` preserves the freeze invariant. -/
theorem unlock_step_inv (s₀ : LockState) (b : Bool) (s' : LockState)
    (h : s₀.unlock = .ok (b, s'))
    (hinv : s₀.frozen = true ↔ 0 < s₀.counter) :
    s'.frozen = true ↔ 0 < s'.counter := by
  unfold LockState.unlock at h
  split_ifs at h with h0 h1
  · cases h
    simp
  · cases h
    simp only
    have h1a : ¬s₀.counter = 1 := fun hh => h1 (Or.inl hh)
    constructor
    · intro hgt
      omega
    · intro hgt
      exact hinv.mpr (by omega)

/-- A successful `unlock()` decrements the counter by at least one. -/
theorem unlock_step_counter (s₀ : LockState) (b : Bool) (s' : LockState)
    (h : s₀.unlock = .ok (b, s')) : s'.counter + 1 ≤ s₀.counter := by
  unfold LockState.unlock at h
  split_ifs at h with h0 h1
  · cases h
    simp only
    rcases h1 with h1 | h1
    · omega
    · rw [h1]
      have : 1 ≤ usizeMax := by decide
      omega
  · cases h
    simp only
    omega

/-- Along any successful run, the target is frozen exactly when the counter
is positive. -/
theorem runOps_frozen_inv :
    ∀ (ops : List LockOp) (s₀ s : LockState), runOps s₀ ops = some s →
      (s₀.frozen = true ↔ 0 < s₀.counter) →
      (s.frozen = true ↔ 0 < s.counter) := by
  intro ops
  induction ops with
  | nil =>
    intro s₀ s h hinv
    rw [show s = s₀ from (Option.some.inj h).symm]
    exact hinv
  | cons op rest ih =>
    intro s₀ s h hinv
    cases op with
    | lock =>
      rcases hs : s₀.lock with e | ⟨b, s'⟩
      · rw [runOps, hs] at h
        exact Option.noConfusion h
      · rw [runOps, hs] at h
        exact ih s' s h (lock_step_inv s₀ b s' hs hinv)
    | unlock =>
      rcases hs : s₀.unlock with e | ⟨b, s'⟩
      · rw [runOps, hs] at h
        exact Option.noConfusion h
      · rw [runOps, hs] at h
        exact ih s' s h (unlock_step_inv s₀ b s' hs hinv)

/-- Counter bookkeeping along a successful run: the final counter plus the
number of unlocks is at most the initial counter plus the number of
locks. -/
theorem runOps_counter_bound :
    ∀ (ops : List LockOp) (s₀ s : LockState), runOps s₀ ops = some s →
      s.counter + ops.count LockOp.unlock ≤
        s₀.counter + ops.count LockOp.lock := by
  intro ops
  induction ops with
  | nil =>
    intro s₀ s h
    rw [show s = s₀ from (Option.some.inj h).symm]
    simp
  | cons op rest ih =>
    intro s₀ s h
    cases op with
    | lock =>
      rcases hs : s₀.lock with e | ⟨b, s'⟩
      · rw [runOps, hs] at h
        exact Option.noConfusion h
      · rw [runOps, hs] at h
        have hc := lock_step_counter s₀ b s' hs
        have := ih s' s h
        rw [List.count_cons_self,
          List.count_cons_of_ne (by decide : LockOp.unlock ≠ LockOp.lock)]
        omega
    | unlock =>
      rcases hs : s₀.unlock with e | ⟨b, s'⟩
      · rw [runOps, hs] at h
        exact Option.noConfusion h
      · rw [runOps, hs] at h
        have hc := unlock_step_counter s₀ b s' hs
        have := ih s' s h
        rw [List.count_cons_self,
          List.count_cons_of_ne (by decide : LockOp.lock ≠ LockOp.unlock)]
        omega

/-- C6: the ptrace lock state machine, with the counter as state and the
ptrace stop and continue calls as the freeze and unfreeze events.
`lock()` from counter zero freezes and sets the counter to one; `lock()`
with a positive counter short of the sentinel only increments; the
exclusive lock succeeds only from counter zero and jumps to the sentinel
`usizeMax`, failing with `AlreadyLocked` otherwise; `unlock()` at counter
zero fails with `NotLocked`; after any balanced successful history of
`lock()`/`unlock()` calls from the detached state the counter is zero and
the target is not frozen; and along every prefix of such a history the
target is frozen exactly when the counter is positive. -/
theorem c6_lock_state_machine :
    (∀ s : LockState, s.counter = 0 →
      s.lock = .ok (true, ⟨1, true⟩)) ∧
    (∀ s : LockState, 0 < s.counter → s.counter < usizeMax →
      s.lock = .ok (false, ⟨s.counter + 1, s.frozen⟩)) ∧
    (∀ s : LockState, s.counter = 0 →
      s.lockExlusive = .ok ⟨usizeMax, true⟩) ∧
    (∀ s : LockState, s.counter ≠ 0 →
      s.lockExlusive = .error .alreadyLocked) ∧
    (∀ s : LockState, s.counter = 0 → s.unlock = .error .notLocked) ∧
    (∀ (ops : List LockOp) (s : LockState), balanced ops →
      runOps LockState.init ops = some s →
      s.counter = 0 ∧ s.frozen = false) ∧
    (∀ (ops pre : List LockOp) (s : LockState), List.IsPrefix pre ops →
      balanced ops → runOps LockState.init pre = some s →
      (s.frozen = true ↔ 0 < s.counter)) := by
  refine ⟨?_, ?_, ?_, ?_, ?_, ?_, ?_⟩
  · intro s h0
    simp [LockState.lock, h0]
  · intro s h0 h1
    simp only [LockState.lock]
    rw [if_neg (by omega), if_neg (by omega)]
  · intro s h0
    simp [LockState.lockExlusive, LockState.lock, h0]
  · intro s h0
    simp [LockState.lockExlusive, h0]
  · intro s h0
    simp [LockState.unlock, h0]
  · intro ops s hbal hrun
    have hbound : s.counter + ops.count LockOp.unlock ≤
        0 + ops.count LockOp.lock := by
      simpa [LockState.init] using runOps_counter_bound ops LockState.init s hrun
    have hcnt : s.counter = 0 := by
      rw [balanced] at hbal
      omega
    refine ⟨hcnt, ?_⟩
    have hinv := runOps_frozen_inv ops LockState.init s hrun (by simp [LockState.init])
    cases hfz : s.frozen
    · rfl
    · exact absurd (hcnt ▸ hinv.mp hfz) (by omega)
  · intro ops pre s _ _ hrun
    exact runOps_frozen_inv pre LockState.init s hrun (by simp [LockState.init])

/-- Witness for C6: a fresh lock call freezes; an exclusive lock on a held
lock fails; the balanced history lock, lock, unlock, unlock ends detached
and unfrozen. -/
theorem c6_lock_state_machine_witness :
    LockState.lock ⟨0, false⟩ = .ok (true, ⟨1, true⟩) ∧
    LockState.lockExlusive ⟨5, true⟩ = .error .alreadyLocked ∧
    (⟨0, false⟩ : LockState).counter = 0 ∧
    (⟨0, false⟩ : LockState).frozen = false :=
  ⟨c6_lock_state_machine.1 ⟨0, false⟩ rfl,
   c6_lock_state_machine.2.2.2.1 ⟨5, true⟩ (by decide),
   (c6_lock_state_machine.2.2.2.2.2.1
      [.lock, .lock, .unlock, .unlock] ⟨0, false⟩ rfl rfl).1,
   (c6_lock_state_machine.2.2.2.2.2.1
      [.lock, .lock, .unlock, .unlock] ⟨0, false⟩ rfl rfl).2⟩

/-- Unfolding step of the page sweep when the accumulator merges the next
page. -/
theorem accFilter_page_cons_ok {a x m : MemoryPage} {xs : List MemoryPage}
    (h : a.tryMergeMut x = .ok m) :
    accFilter MemoryPage.pageAccStep (x :: xs) (some a) =
      accFilter MemoryPage.pageAccStep xs (some m) := by
  simp only [accFilter]
  simp [MemoryPage.pageAccStep, h]

/-- Unfolding step of the page sweep when the accumulator cannot merge the
next page: the accumulator is emitted and the next page becomes the new
accumulator. -/
theorem accFilter_page_cons_err {a x c : MemoryPage} {xs : List MemoryPage}
    (h : a.tryMergeMut x = .error c) :
    accFilter MemoryPage.pageAccStep (x :: xs) (some a) =
      a :: accFilter MemoryPage.pageAccStep xs (some c) := by
  simp only [accFilter]
  simp [MemoryPage.pageAccStep, h]

/-- The page sweep over a start-sorted tail, begun with accumulator `c`
whose start does not exceed any later start, emits a nonempty output whose
head starts exactly at `c.startAddr` and whose consecutive elements can
never merge. -/
theorem accFilter_page_chain (xs : List MemoryPage) :
    ∀ c : MemoryPage, (∀ x ∈ xs, c.startAddr ≤ x.startAddr) →
      xs.Pairwise (fun a b => a.startAddr ≤ b.startAddr) →
      ∃ h t, accFilter MemoryPage.pageAccStep xs (some c) = h :: t ∧
        h.startAddr = c.startAddr ∧
        List.Chain'
          (fun a b => a.endAddr < b.startAddr ∨ b.endAddr < a.startAddr)
          (h :: t) := by
  induction xs with
  | nil =>
    intro c _ _
    exact ⟨c, [], rfl, rfl, List.chain'_singleton c⟩
  | cons x xs ih =>
    intro c hle hsort
    have hcx : c.startAddr ≤ x.startAddr := hle x (List.mem_cons_self x xs)
    have hxle : ∀ y ∈ xs, x.startAddr ≤ y.startAddr :=
      (List.pairwise_cons.mp hsort).1
    have hsort' := (List.pairwise_cons.mp hsort).2
    rcases hmerge : c.tryMergeMut x with d | m
    · have hd : d = x := ((pageMerge_error_iff c x d).mp hmerge).1
      rw [hd] at hmerge
      have hcond := ((pageMerge_error_iff c x x).mp hmerge).2
      rw [accFilter_page_cons_err hmerge]
      obtain ⟨h, t, heq, hstart, hchain⟩ := ih x hxle hsort'
      refine ⟨c, h :: t, by rw [heq], rfl, ?_⟩
      rw [List.chain'_cons]
      refine ⟨?_, hchain⟩
      rcases hcond with h1 | h2
      · exact Or.inl (by rw [hstart]; exact h1)
      · have hdeg : x.endAddr < x.startAddr := lt_of_lt_of_le h2 hcx
        have hhx : h = x := by
          cases xs with
          | nil =>
            simp only [accFilter] at heq
            exact (List.cons_eq_cons.mp heq).1.symm
          | cons y ys =>
            have hyx : x.startAddr ≤ y.startAddr :=
              hxle y (List.mem_cons_self y ys)
            have hfail : x.tryMergeMut y = .error y :=
              (pageMerge_error_iff x y y).mpr
                ⟨rfl, Or.inl (lt_of_lt_of_le hdeg hyx)⟩
            rw [accFilter_page_cons_err hfail] at heq
            exact (List.cons_eq_cons.mp heq).1.symm
        exact Or.inr (by rw [hhx]; exact h2)
    · have hcnd := (pageMerge_ok_iff c x m).mp hmerge
      have hmstart : m.startAddr = c.startAddr := by
        rw [hcnd.2]
        simp only [MemoryPage.startAddr]
        exact min_eq_left hcx
      rw [accFilter_page_cons_ok hmerge]
      have hmle : ∀ y ∈ xs, m.startAddr ≤ y.startAddr := by
        intro y hy
        rw [hmstart]
        exact hle y (List.mem_cons_of_mem x hy)
      obtain ⟨h, t, heq, hstart, hchain⟩ := ih m hmle hsort'
      exact ⟨h, t, heq, by rw [hstart, hmstart], hchain⟩

/-- A list whose consecutive elements can never merge is a fixed point of
the page sweep. -/
theorem mergeSorted_of_chain_fail :
    ∀ (t : List MemoryPage) (h : MemoryPage),
      List.Chain'
        (fun a b => a.endAddr < b.startAddr ∨ b.endAddr < a.startAddr)
        (h :: t) →
      accFilter MemoryPage.pageAccStep t (some h) = h :: t := by
  intro t
  induction t with
  | nil => intro h _; rfl
  | cons b t' ih =>
    intro h hchain
    rw [List.chain'_cons] at hchain
    have hfail : h.tryMergeMut b = .error b :=
      (pageMerge_error_iff h b b).mpr ⟨rfl, hchain.1⟩
    rw [accFilter_page_cons_err hfail, ih b hchain.2]

/-- C9: on any start-sorted page sequence, `merge_sorted` is idempotent —
applying it to its own output returns that output unchanged. -/
theorem c9_merge_sorted_idempotent (l : List MemoryPage)
    (hsort : l.Pairwise fun a b => a.startAddr ≤ b.startAddr) :
    MemoryPage.mergeSorted (MemoryPage.mergeSorted l) =
      MemoryPage.mergeSorted l := by
  cases l with
  | nil => rfl
  | cons c xs =>
    have h1 : MemoryPage.mergeSorted (c :: xs) =
        accFilter MemoryPage.pageAccStep xs (some c) := rfl
    rcases List.pairwise_cons.mp hsort with ⟨hle, hsort'⟩
    obtain ⟨h, t, heq, _, hchain⟩ := accFilter_page_chain xs c hle hsort'
    rw [h1, heq]
    show accFilter MemoryPage.pageAccStep t (some h) = h :: t
    exact mergeSorted_of_chain_fail t h hchain

/-- Witness for C9 on the specification's page-merge scenario: the sorted
pages `[100, 200)`, `[200, 300)`, `[400, 500)`. -/
theorem c9_merge_sorted_idempotent_witness :
    MemoryPage.mergeSorted (MemoryPage.mergeSorted
      [⟨(100, 200), ⟨15⟩, 0, .anon⟩, ⟨(200, 300), ⟨5⟩, 0, .anon⟩,
       ⟨(400, 500), ⟨11⟩, 0, .anon⟩]) =
      MemoryPage.mergeSorted
      [⟨(100, 200), ⟨15⟩, 0, .anon⟩, ⟨(200, 300), ⟨5⟩, 0, .anon⟩,
       ⟨(400, 500), ⟨11⟩, 0, .anon⟩] :=
  c9_merge_sorted_idempotent _ (by decide)

end Procmem

